import Mathlib

/-!
Verification of the diff-to-position locator, the AI response parser and
validator, and the change-application engine of the issue/PR automation
scripts.  The definitions below are a shallow embedding of the JavaScript
sources (`pr-review.js` and the issue driver): line lists stand for the
result of `split('\n')`, `Int` stands for JS integer arithmetic, `Option`
encodes sentinel results and `Except` encodes thrown errors.  External
collaborators (the JSON parser builtin, the file system, the HTTP APIs)
appear as function parameters or as already-parsed values.
-/

set_option maxRecDepth 4000

/-! ### Character-list utilities (JS string primitives) -/

/-- Prefix test on character lists; models `String.prototype.startsWith`
and literal matching inside a regex. -/
def isPre : List Char → List Char → Bool
  | [], _ => true
  | _ :: _, [] => false
  | p :: ps, c :: cs => if p = c then isPre ps cs else false

/-- Index of the first occurrence of `pat` in the text, scanning left to
right, as a JS regex/`indexOf` search does. -/
def findSub (pat : List Char) : List Char → Option Nat
  | [] => if isPre pat [] then some 0 else none
  | c :: rest =>
    if isPre pat (c :: rest) then some 0
    else (findSub pat rest).map (· + 1)

/-- Numeric value of a decimal digit character. -/
def digitVal (c : Char) : Nat := c.toNat - '0'.toNat

/-- Value of a nonempty digit string, as `parseInt` computes it. -/
def digitsToNat (ds : List Char) : Nat :=
  ds.foldl (fun n c => 10 * n + digitVal c) 0

/-- JS `startsWith`: `startsWithJS s p` is true when `p` begins `s`. -/
def startsWithJS (s p : String) : Bool := isPre p.data s.data

/-! ### The hunk-header regex of `reviewPR`

`pr-review.js` line 152 runs `line.match(/@@ -\d+(?:,\d+)? \+(\d+)(?:,\d+)? @@/)`
and takes `parseInt(match[1])`.  `matchHeaderAt` attempts the pattern at one
position; `searchHeader` scans positions left to right as `String.match`
does.  The optional `,\d+` groups need no backtracking: when a comma is
present but the group cannot complete, the mandatory following literal
(a space) also fails without the group. -/

/-- Consume an optional `,\d+` group of the hunk-header pattern. -/
def afterComma (cs : List Char) : Option (List Char) :=
  match cs with
  | ',' :: r =>
    let ds := r.takeWhile Char.isDigit
    if ds.isEmpty then none else some (r.dropWhile Char.isDigit)
  | _ => some cs

/-- Try the hunk-header pattern at the start of `cs`; on success return
the captured new-file start number. -/
def matchHeaderAt (cs : List Char) : Option Nat :=
  match (if isPre "@@ -".data cs then some (cs.drop 4) else none) with
  | none => none
  | some r1 =>
    let ds1 := r1.takeWhile Char.isDigit
    if ds1.isEmpty then none else
    match afterComma (r1.dropWhile Char.isDigit) with
    | none => none
    | some r2 =>
      match (if isPre " +".data r2 then some (r2.drop 2) else none) with
      | none => none
      | some r3 =>
        let ds2 := r3.takeWhile Char.isDigit
        if ds2.isEmpty then none else
        match afterComma (r3.dropWhile Char.isDigit) with
        | none => none
        | some r4 =>
          if isPre " @@".data r4 then some (digitsToNat ds2) else none

/-- Search the hunk-header pattern anywhere in the line. -/
def searchHeader : List Char → Option Nat
  | [] => none
  | c :: rest =>
    match matchHeaderAt (c :: rest) with
    | some n => some n
    | none => searchHeader rest

/-- New-file start number of a hunk-header line: the regex is consulted
only when the line starts with `@@`, exactly as in the source. -/
def headerNum (line : String) : Option Nat :=
  if startsWithJS line "@@" then searchHeader line.data else none

/-! ### The diff line locator (`reviewPR`, lines 143-169) -/

/-- How the locator loop treats one diff line. -/
inductive LineKind where
  | header (ns : Nat)
  | marker
  | removed
  | content
deriving DecidableEq

/-- Classification of a diff line following the nested conditionals of the
loop body: a parsed `@@` header resets the counter; `---`/`+++` markers are
skipped entirely; other lines starting with `-` are removals; everything
else (context, additions, and any unparsed line) counts as a new-file
line. -/
def classify (line : String) : LineKind :=
  match headerNum line with
  | some ns => .header ns
  | none =>
    if startsWithJS line "---" || startsWithJS line "+++" then .marker
    else if startsWithJS line "-" then .removed
    else .content

/-- Effect of one scanned line on the `lineCounter` variable. -/
def stepCounter (c : Int) (line : String) : Int :=
  match classify line with
  | .header ns => (ns : Int) - 1
  | .marker => c
  | .removed => c
  | .content => c + 1

/-- Counter value after scanning a list of lines starting from `c`. -/
def counterFrom (c : Int) (lines : List String) : Int :=
  lines.foldl stepCounter c

/-- The locator loop: `i` is the 0-based index of the current line and `c`
the running new-file line counter; a match returns the 1-based position
`i + 1`.  Removal lines do not advance the counter but, as in the source,
the equality test still runs on them. -/
def findPositionFrom : List String → Nat → Int → Int → Option Nat
  | [], _, _, _ => none
  | line :: rest, i, c, target =>
    match classify line with
    | .header ns => findPositionFrom rest (i + 1) ((ns : Int) - 1) target
    | .marker => findPositionFrom rest (i + 1) c target
    | .removed =>
      if c = target then some (i + 1) else findPositionFrom rest (i + 1) c target
    | .content =>
      if c + 1 = target then some (i + 1)
      else findPositionFrom rest (i + 1) (c + 1) target

/-- Locate the diff position of new-file line `target` in a list of patch
lines. -/
def findPositionLines (patchLines : List String) (target : Int) : Option Nat :=
  findPositionFrom patchLines 0 0 target

/-- JS `split('\n')`, accumulating the current line in reverse. -/
def splitLinesAux : List Char → List Char → List String
  | [], acc => [⟨acc.reverse⟩]
  | '\n' :: rest, acc => ⟨acc.reverse⟩ :: splitLinesAux rest []
  | c :: rest, acc => splitLinesAux rest (c :: acc)

/-- Split a blob into lines as `patch.split('\n')` does: every separator
produces a piece, so a trailing newline yields a trailing empty line and
the empty blob yields one empty line. -/
def splitLines (s : String) : List String := splitLinesAux s.data []

/-- Locate the diff position inside a patch blob, splitting on newlines as
`file.patch.split('\n')` does. -/
def findPosition (patch : String) (target : Int) : Option Nat :=
  findPositionLines (splitLines patch) target

/-- A line the locator counts as a new-file (context or added) line. -/
def isContentLine (line : String) : Bool := classify line = .content

/-- A line the locator treats as a removal. -/
def isRemovedLine (line : String) : Bool := classify line = .removed

/-- Well-formedness of a diff, stated on the scan itself: the new-file
counter never decreases while scanning from `c`.  Every well-formed
unified diff satisfies this, because hunks appear in increasing new-file
order and each header resets the counter to at least its current value. -/
def validFrom (c : Int) : List String → Bool
  | [] => true
  | line :: rest =>
    decide (c ≤ stepCounter c line) && validFrom (stepCounter c line) rest

/-- A valid unified diff: the scan counter is monotone from its initial
value 0. -/
abbrev ValidDiff (lines : List String) : Prop := validFrom 0 lines = true

/-! ### JSON values and the review-list validator (`getReview`) -/

/-- Parsed JSON values, the output type of the external `JSON.parse`. -/
inductive JValue where
  | null
  | bool (b : Bool)
  | num (n : Int)
  | str (s : String)
  | arr (elems : List JValue)
  | obj (fields : List (String × JValue))

/-- JS `typeof v === 'object'`: true for objects, arrays, and `null`. -/
def typeofIsObject : JValue → Bool
  | .null => true
  | .arr _ => true
  | .obj _ => true
  | _ => false

/-- Field lookup on a parsed object. -/
def lookupField : List (String × JValue) → String → Option JValue
  | [], _ => none
  | (k, v) :: rest, key => if k = key then some v else lookupField rest key

/-- JS property access on a non-null value: `none` is `undefined`. -/
def getProp : JValue → String → Option JValue
  | .obj fs, key => lookupField fs key
  | _, _ => none

/-- Is a JValue the JSON `null`? -/
def isNullJ : JValue → Bool
  | .null => true
  | _ => false

/-- The filter predicate of `getReview` (lines 72-80) with JS exception
semantics: the result is `none` when the callback throws.  `typeof null`
is `'object'`, so a `null` element passes the first test and the
subsequent `review.line` access raises a `TypeError`. -/
def checkReview : JValue → Option Bool
  | .null => none
  | v =>
    if typeofIsObject v then
      match getProp v "line" with
      | some (.num n) =>
        match getProp v "comment" with
        | some (.str s) => some (decide (0 < n) && decide (0 < s.length))
        | _ => some false
      | _ => some false
    else some false

/-- `Array.prototype.filter` with a possibly-throwing callback. -/
def filterReviews : List JValue → Option (List JValue)
  | [] => some []
  | v :: rest =>
    match checkReview v with
    | none => none
    | some true => (filterReviews rest).map (v :: ·)
    | some false => filterReviews rest

/-- Core of `getReview` after the model call: the input is the outcome of
`JSON.parse` on the raw text (`none` when the parse threw).  A non-array
result throws, and every throw is caught and collapsed to the "no
reviews" sentinel `none`. -/
def getReviewCore (parsed : Option JValue) : Option (List JValue) :=
  match parsed with
  | some (.arr elems) => filterReviews elems
  | _ => none

/-- The validation rule as the claim words it: an object whose `line`
field is a number greater than 0 and whose `comment` field is a non-empty
string. -/
def validReviewB (v : JValue) : Bool :=
  match v with
  | .obj fs =>
    match lookupField fs "line", lookupField fs "comment" with
    | some (.num n), some (.str s) => decide (0 < n) && decide (0 < s.length)
    | _, _ => false
  | _ => false

/-! ### Solution-object extraction (`analyzeIssueWithKnowledgeBase`, lines 99-107) -/

/-- The backtick character, written by code point. -/
def btick : Char := '\x60'

/-- Characters of the fenced-block opener `"```json\n"`. -/
def fenceOpenChars : List Char := "```json\n".data

/-- Characters of the fenced-block closer `"\n```"`. -/
def fenceCloseChars : List Char := "\n```".data

/-- First match of the lazy fence regex ```` /```json\n([\s\S]*?)\n```/ ````:
the capture group runs from the first opener to the first closer after
it. -/
def fenceGroup (cs : List Char) : Option (List Char) :=
  match findSub fenceOpenChars cs with
  | none => none
  | some i =>
    let rest := cs.drop (i + 8)
    match findSub fenceCloseChars rest with
    | some j => some (rest.take j)
    | none => none

/-- Index of the last occurrence of a character. -/
def lastIdxOf (c : Char) : List Char → Option Nat
  | [] => none
  | x :: rest =>
    match lastIdxOf c rest with
    | some j => some (j + 1)
    | none => if x = c then some 0 else none

/-- First match of the greedy regex `/{[\s\S]*}/`: from the first opening
brace that has a closing brace after it, to the last closing brace. -/
def braceMatch : List Char → Option (List Char)
  | [] => none
  | c :: rest =>
    if c = '\x7b' then
      match lastIdxOf '\x7d' rest with
      | some j => some ('\x7b' :: rest.take (j + 1))
      | none => none
    else braceMatch rest

/-- The `jsonStr` computation of lines 100-104.  When neither regex
matches, `jsonMatch` is the raw text itself and `jsonMatch[1] ||
jsonMatch[0]` indexes *characters*: the result degenerates to the second
character of the text (or the first when it is shorter, or the empty
string when the text is empty and hence falsy). -/
def extractRaw (cs : List Char) : List Char :=
  match fenceGroup cs with
  | some g =>
    if g.isEmpty then fenceOpenChars ++ g ++ fenceCloseChars else g
  | none =>
    match braceMatch cs with
    | some full => full
    | none =>
      match cs with
      | [] => []
      | [c0] => [c0]
      | _ :: c1 :: _ => [c1]

/-- Characters of the residual-fence pattern `"```json"`. -/
def fenceWordChars : List Char := "```json".data

/-- Characters of the bare fence `"```"`. -/
def fenceBareChars : List Char := "```".data

/-- The global replace `.replace(/```json|```/g, '')`: left-to-right, the
longer alternative tried first at each position, resuming after each
removal.  The two alternatives are written out as character patterns. -/
def stripFences : List Char → List Char
  | '\x60' :: '\x60' :: '\x60' :: 'j' :: 's' :: 'o' :: 'n' :: rest => stripFences rest
  | '\x60' :: '\x60' :: '\x60' :: rest => stripFences rest
  | c :: rest => c :: stripFences rest
  | [] => []

/-- Whitespace as `String.prototype.trim` strips it (the ASCII part of the
JS whitespace set, which is all the sources can produce). -/
def isJsWS (c : Char) : Bool :=
  c = ' ' || c = '\t' || c = '\n' || c = '\r' || c = '\x0b' || c = '\x0c'

/-- JS `trim`. -/
def trimChars (l : List Char) : List Char :=
  ((l.dropWhile isJsWS).reverse.dropWhile isJsWS).reverse

/-- The string handed to `JSON.parse` by lines 100-107: regex extraction,
residual-fence stripping, then trimming. -/
def extractJsonStr (s : String) : String :=
  ⟨trimChars (stripFences (extractRaw s.data))⟩

/-- The error message thrown on an unparseable solution. -/
def solutionErrMsg : String := "Failed to parse solution from AI response"

/-- Core of `analyzeIssueWithKnowledgeBase` after the model call: extract,
then hand to the external JSON parser `jparse`; a failed parse is rethrown
as an AI-response-malformed error, which the outer catch re-raises
unchanged. -/
def analyzeCore (jparse : String → Option JValue) (responseText : String) :
    Except String JValue :=
  match jparse (extractJsonStr responseText) with
  | some v => Except.ok v
  | none => Except.error solutionErrMsg

/-- Wrapping a text in a fenced ```` ```json ```` block, as the claim
describes. -/
def fenceWrap (s : String) : String := "```json\n" ++ s ++ "\n```"

/-! ### The change-application engine (`applyChanges`, lines 118-153) -/

/-- A single proposed change.  Fields are optional because the AI may omit
them; the source tests them by JS truthiness, under which an *empty*
string also counts as absent. -/
structure ChangeSpec where
  file : Option String
  original : Option String
  replacement : Option String

/-- JS truthiness of an optional string field: absent and empty are
falsy. -/
def truthyStr : Option String → Bool
  | none => false
  | some s => !s.data.isEmpty

/-- Split a text around the first occurrence of `pat`:
`some (before, after)` on a match, `none` when `pat` does not occur. -/
def splitFirst (pat : List Char) : List Char → Option (List Char × List Char)
  | [] => if isPre pat [] then some ([], []) else none
  | c :: rest =>
    if isPre pat (c :: rest) then some ([], (c :: rest).drop pat.length)
    else (splitFirst pat rest).map (fun p => (c :: p.1, p.2))

/-- The `GetSubstitution` step of `String.prototype.replace`: in the
replacement text, `$$` yields `$`, `$&` the matched text, a dollar before
a backtick the text preceding the match, `$'` the text following it; any
other `$` is literal (a string pattern has no capture groups). -/
def subst (matched before after : List Char) : List Char → List Char
  | [] => []
  | c :: r =>
    if c = '$' then
      match r with
      | '$' :: r2 => '$' :: subst matched before after r2
      | '&' :: r2 => matched ++ subst matched before after r2
      | '\x60' :: r2 => before ++ subst matched before after r2
      | '\'' :: r2 => after ++ subst matched before after r2
      | [] => ['$']
      | c2 :: r2 => '$' :: c2 :: subst matched before after r2
    else c :: subst matched before after r

/-- JS `content.replace(pat, repl)` with a string pattern: replace the
first occurrence, applying dollar substitution to the replacement; return
the content unchanged when the pattern does not occur. -/
def jsReplaceChars (content pat repl : List Char) : List Char :=
  match splitFirst pat content with
  | none => content
  | some (b, a) => b ++ subst pat b a repl ++ a

/-- String front end of `jsReplaceChars`. -/
def jsReplace (content pat repl : String) : String :=
  ⟨jsReplaceChars content.data pat.data repl.data⟩

/-- Does `pat` occur in `content` as a literal substring? -/
def occursIn (content pat : String) : Bool :=
  (splitFirst pat.data content.data).isSome

/-- Content transformation of one loop iteration of `applyChanges`: a
change with a falsy `file` or `replacement` is skipped, a truthy
`original` triggers a first-occurrence `replace`, a falsy one replaces the
whole content.  File-system reads and writes are external; this is the
function applied between them. -/
def applyChange (change : ChangeSpec) (content : String) : String :=
  if !(truthyStr change.file) || !(truthyStr change.replacement) then content
  else
    let repl := change.replacement.getD ""
    if truthyStr change.original then
      jsReplace content (change.original.getD "") repl
    else repl

/-- Replacement as the spec's words describe it: a plain literal
substitution of the first occurrence, with no dollar processing.  Kept
separate from `jsReplace` to compare the two. -/
def literalReplaceFirst (content pat repl : String) : String :=
  match splitFirst pat.data content.data with
  | none => content
  | some (b, a) => ⟨b ++ repl.data ++ a⟩

/-! ## Supporting lemmas -/

/-- The empty pattern occurs at the start of every text. -/
theorem splitFirst_nil (l : List Char) : splitFirst [] l = some ([], l) := by
  cases l <;> simp [splitFirst, isPre]

/-- Substitution step on a non-dollar character. -/
theorem subst_cons_ne (m b a : List Char) (c : Char) (r : List Char)
    (hc : c ≠ '$') : subst m b a (c :: r) = c :: subst m b a r := by
  rw [subst.eq_def]
  simp [hc]

/-- A dollar-free replacement passes through substitution unchanged. -/
theorem subst_no_dollar (m b a : List Char) (r : List Char) (h : '$' ∉ r) :
    subst m b a r = r := by
  induction r with
  | nil => rfl
  | cons c r' ih =>
    have hc : c ≠ '$' := fun e => h (e ▸ List.mem_cons_self c r')
    have hr : '$' ∉ r' := fun e => h (List.mem_cons_of_mem c e)
    rw [subst_cons_ne m b a c r' hc, ih hr]

/-- A nonempty list is not `isEmpty`. -/
theorem isEmpty_false_of_ne_nil {l : List Char} (h : l ≠ []) : l.isEmpty = false := by
  cases l with
  | nil => exact absurd rfl h
  | cons c cs => rfl

/-! ## Claim theorems -/

/-- Two-hunk diff used by the hunk-reset claim. -/
def twoHunkDiff : String :=
  "--- a/f\n+++ b/f\n@@ -1,3 +1,3 @@\n a\n-b\n+B\n c\n@@ -10,2 +12,4 @@\n j\n+k\n+l\n m"

/-- C9: in the diff whose hunks are `@@ -1,3 +1,3 @@` and then
`@@ -10,2 +12,4 @@`, locating new-file line 13 yields position 10, the
added line `+k`, which lies after the second hunk header at position 8:
the header resets the counter to `12 - 1`, so line 13 is found in the
second hunk and not in the first. -/
theorem locator_two_hunks_second :
    findPosition twoHunkDiff 13 = some 10 ∧
    (splitLines twoHunkDiff).get? 7 = some "@@ -10,2 +12,4 @@" ∧
    (splitLines twoHunkDiff).get? 9 = some "+k" ∧
    headerNum "@@ -10,2 +12,4 @@" = some 12 ∧ 8 < 10 := by
  refine ⟨by decide, by decide, by decide, by decide, by decide⟩

/-- C5: whenever the extracted string does not parse as JSON, the
solution parser raises the AI-response-malformed error instead of
returning a sentinel. -/
theorem analyze_malformed_raises (jparse : String → Option JValue)
    (t : String) (h : jparse (extractJsonStr t) = none) :
    analyzeCore jparse t = Except.error solutionErrMsg := by
  simp [analyzeCore, h]

/-- Witness for `analyze_malformed_raises` at a concrete parser and text. -/
theorem analyze_malformed_raises_witness :
    analyzeCore (fun _ => none) "not json" = Except.error solutionErrMsg :=
  analyze_malformed_raises (fun _ => none) "not json" rfl

/-- C7: a failed top-level parse, or a parse result that is not an array,
makes the review-list parser return the "no reviews" sentinel rather than
raise. -/
theorem getReview_non_array_null (parsed : Option JValue)
    (h : ∀ es, parsed ≠ some (JValue.arr es)) :
    getReviewCore parsed = none := by
  match parsed with
  | none => rfl
  | some .null => rfl
  | some (.bool b) => rfl
  | some (.num n) => rfl
  | some (.str s) => rfl
  | some (.obj fs) => rfl
  | some (.arr es) => exact absurd rfl (h es)

/-- Witness for `getReview_non_array_null`: a raw text that is not JSON
parses to nothing, and the call returns the sentinel. -/
theorem getReview_non_array_null_witness : getReviewCore none = none :=
  getReview_non_array_null none (fun _ h => Option.noConfusion h)

/-- C8: when `original` is present but does not occur in the content,
applying the change returns the content unchanged — re-application of an
already-applied change is a no-op, not an error. -/
theorem applyChange_missing_original_noop (change : ChangeSpec)
    (content o : String) (ho : change.original = some o)
    (hno : occursIn content o = false) :
    applyChange change content = content := by
  unfold applyChange
  by_cases hskip : (!truthyStr change.file || !truthyStr change.replacement) = true
  · simp [hskip]
  · simp only [hskip]
    have hoe : o.data ≠ [] := by
      intro he
      rw [occursIn, he, splitFirst_nil] at hno
      simp [Option.isSome] at hno
    have htr : truthyStr change.original = true := by
      rw [ho]
      simp [truthyStr, isEmpty_false_of_ne_nil hoe]
    simp only [htr, if_true, Bool.false_eq_true, if_false]
    rw [ho]
    simp only [Option.getD_some]
    rw [occursIn] at hno
    rw [jsReplace, jsReplaceChars]
    rcases hsf : splitFirst o.data content.data with _ | p
    · rfl
    · rw [hsf] at hno
      simp [Option.isSome] at hno

/-- Witness for `applyChange_missing_original_noop` on a concrete
change whose snippet is absent from the file. -/
theorem applyChange_missing_original_noop_witness :
    applyChange ⟨some "f", some "zz", some "y"⟩ "ab" = "ab" :=
  applyChange_missing_original_noop ⟨some "f", some "zz", some "y"⟩ "ab" "zz"
    rfl (by decide)

/-- C10: fields are tested by truthiness, not presence — an empty-string
`replacement` makes the change invalid and skipped (content untouched),
while an empty-string `original` is treated as absent, so the whole
content becomes the replacement. -/
theorem applyChange_truthiness (change : ChangeSpec) (content f r : String)
    (hf : f.data ≠ []) (hr : r.data ≠ []) :
    (change.replacement = some "" → applyChange change content = content) ∧
    applyChange ⟨some f, some "", some r⟩ content = r := by
  constructor
  · intro he
    unfold applyChange
    rw [he]
    simp [truthyStr]
  · unfold applyChange
    simp [truthyStr, isEmpty_false_of_ne_nil hf, isEmpty_false_of_ne_nil hr]

/-- Witness for `applyChange_truthiness` at concrete changes. -/
theorem applyChange_truthiness_witness :
    applyChange ⟨some "x", some "orig", some ""⟩ "c" = "c" ∧
    applyChange ⟨some "f", some "", some "y"⟩ "c" = "y" :=
  ⟨(applyChange_truthiness ⟨some "x", some "orig", some ""⟩ "c" "f" "y"
      (by decide) (by decide)).1 rfl,
   (applyChange_truthiness ⟨some "f", some "", some "y"⟩ "c" "f" "y"
      (by decide) (by decide)).2⟩

/-- C3 counterexample: the replacement is not inserted literally — JS
`replace` interprets dollar patterns in it, so replacing `"a"` by
`"$&$&"` in `"ab"` produces `"aab"`, not the literal `"$&$&b"` the claim
requires. -/
theorem applyChange_dollar_cex :
    applyChange ⟨some "f", some "a", some "$&$&"⟩ "ab" = "aab" ∧
    ("aab" : String) ≠ "$&$&b" := by
  refine ⟨by decide, by decide⟩

/-- C3 amended: restricted to replacements containing no dollar sign, the
engine performs a literal first-occurrence substitution (content unchanged
when `original` is absent from the content), and with `original` missing
the content becomes the replacement verbatim. -/
theorem applyChange_literal_amended (content orig repl f : String)
    (hf : f.data ≠ []) (hr : repl.data ≠ []) (hd : '$' ∉ repl.data) :
    (orig.data ≠ [] →
      applyChange ⟨some f, some orig, some repl⟩ content
        = literalReplaceFirst content orig repl) ∧
    applyChange ⟨some f, none, some repl⟩ content = repl := by
  constructor
  · intro ho
    have h1 : truthyStr (some f) = true := by
      simp [truthyStr, isEmpty_false_of_ne_nil hf]
    have h2 : truthyStr (some repl) = true := by
      simp [truthyStr, isEmpty_false_of_ne_nil hr]
    have h3 : truthyStr (some orig) = true := by
      simp [truthyStr, isEmpty_false_of_ne_nil ho]
    unfold applyChange
    rw [literalReplaceFirst]
    rcases hsf : splitFirst orig.data content.data with _ | ⟨b, a⟩
    · simp [h1, h2, h3, jsReplace, jsReplaceChars, hsf]
    · simp [h1, h2, h3, jsReplace, jsReplaceChars, hsf,
        subst_no_dollar _ _ _ _ hd]
  · unfold applyChange
    simp [truthyStr, isEmpty_false_of_ne_nil hf, isEmpty_false_of_ne_nil hr]

/-- Witness for `applyChange_literal_amended`: the spec's own example, and
a whole-file replacement. -/
theorem applyChange_literal_amended_witness :
    applyChange ⟨some "f", some "x = 1", some "x = 2"⟩ "const x = 1;"
      = "const x = 2;" ∧
    applyChange ⟨some "f", none, some "fresh"⟩ "old" = "fresh" :=
  ⟨((applyChange_literal_amended "const x = 1;" "x = 1" "x = 2" "f"
      (by decide) (by decide) (by decide)).1 (by decide)).trans (by decide),
   (applyChange_literal_amended "old" "anything" "fresh" "f"
      (by decide) (by decide) (by decide)).2⟩

/-- C4 counterexample: an array containing JSON `null` does not have the
null dropped silently — `typeof null` is `'object'`, the `line` access
throws, and the whole call collapses to the "no reviews" sentinel instead
of the empty review list the claim requires. -/
theorem getReview_null_element_cex :
    getReviewCore (some (.arr [.null])) = none ∧
    (none : Option (List JValue)) ≠ some [] :=
  ⟨rfl, fun h => Option.noConfusion h⟩

/-- One review element behaves as the claim says when it is not `null`. -/
theorem checkReview_eq_valid (v : JValue) (hv : isNullJ v = false) :
    checkReview v = some (validReviewB v) := by
  match v with
  | .null => exact absurd hv (by simp [isNullJ])
  | .bool b => rfl
  | .num n => rfl
  | .str s => rfl
  | .arr es => rfl
  | .obj fs =>
    simp only [checkReview, validReviewB, getProp, typeofIsObject, if_true]
    rcases lookupField fs "line" with _ | v1
    · rfl
    · rcases v1 with _ | b | n | s | es | fs2 <;> try rfl
      rcases lookupField fs "comment" with _ | v2
      · rfl
      · rcases v2 with _ | b2 | n2 | s2 | es2 | fs3 <;> rfl

/-- C4 amended: for arrays with no `null` element the parser returns
exactly the elements that are objects with a numeric `line > 0` and a
non-empty string `comment`, silently dropping everything else; an array
containing `null` instead collapses to the "no reviews" sentinel. -/
theorem getReview_filter_amended (elems : List JValue)
    (h : ∀ v ∈ elems, isNullJ v = false) :
    getReviewCore (some (.arr elems)) = some (elems.filter validReviewB) := by
  show filterReviews elems = some (elems.filter validReviewB)
  induction elems with
  | nil => rfl
  | cons v rest ih =>
    have hv := h v (List.mem_cons_self v rest)
    have hrest : ∀ w ∈ rest, isNullJ w = false :=
      fun w hw => h w (List.mem_cons_of_mem v hw)
    rw [filterReviews, checkReview_eq_valid v hv, List.filter_cons]
    rcases hb : validReviewB v with _ | _
    · simpa using ih hrest
    · simp only [if_true]
      rw [ih hrest]
      rfl

/-- Witness for `getReview_filter_amended`: the claim's example array
yields exactly the line-5 entry. -/
theorem getReview_filter_amended_witness :
    getReviewCore (some (.arr
      [.obj [("line", .num 5), ("comment", .str "ok")],
       .obj [("line", .num (-1)), ("comment", .str "bad")],
       .obj [("foo", .num 1)]]))
    = some [.obj [("line", .num 5), ("comment", .str "ok")]] := by
  rw [getReview_filter_amended _ (by decide)]
  rfl

/-! ## Locator lemmas -/

/-- Unfold `isContentLine`. -/
theorem isContentLine_iff {l : String} :
    isContentLine l = true ↔ classify l = .content := by
  simp [isContentLine]

/-- Counter step on a header line. -/
theorem stepCounter_header {x : String} {ns : Nat} (c : Int)
    (h : classify x = .header ns) : stepCounter c x = (ns : Int) - 1 := by
  simp [stepCounter, h]

/-- Counter step on a marker line. -/
theorem stepCounter_marker {x : String} (c : Int)
    (h : classify x = .marker) : stepCounter c x = c := by
  simp [stepCounter, h]

/-- Counter step on a removed line. -/
theorem stepCounter_removed {x : String} (c : Int)
    (h : classify x = .removed) : stepCounter c x = c := by
  simp [stepCounter, h]

/-- Counter step on a content line. -/
theorem stepCounter_content {x : String} (c : Int)
    (h : classify x = .content) : stepCounter c x = c + 1 := by
  simp [stepCounter, h]

/-- Unfold one step of the validity scan. -/
theorem validFrom_cons {c : Int} {x : String} {rest : List String} :
    validFrom c (x :: rest) = true ↔
      c ≤ stepCounter c x ∧ validFrom (stepCounter c x) rest = true := by
  simp [validFrom]

/-- On a monotone scan the counter never drops below its starting value. -/
theorem le_counterFrom_of_valid (pre : List String) :
    ∀ (c : Int) (rest : List String), validFrom c (pre ++ rest) = true →
      c ≤ counterFrom c pre := by
  induction pre with
  | nil => intro c rest _; simp [counterFrom]
  | cons p pre' ih =>
    intro c rest h
    rw [List.cons_append] at h
    obtain ⟨h1, h2⟩ := validFrom_cons.mp h
    exact le_trans h1 (ih (stepCounter c p) rest h2)

/-- Core induction for the locator: on a monotone scan, if some content
line has new-file number `target` then the scan stops at a content line
with that number, returning its overall 1-based position. -/
theorem findPositionFrom_finds (lines : List String) :
    ∀ (i : Nat) (c target : Int),
      validFrom c lines = true →
      (∃ pre l post, lines = pre ++ l :: post ∧ isContentLine l = true ∧
        counterFrom c pre + 1 = target) →
      ∃ pre2 l2 post2, lines = pre2 ++ l2 :: post2 ∧ isContentLine l2 = true ∧
        counterFrom c pre2 + 1 = target ∧
        findPositionFrom lines i c target = some (i + pre2.length + 1) := by
  induction lines with
  | nil =>
    intro i c target _ hex
    obtain ⟨pre, l, post, heq, -, -⟩ := hex
    exact absurd heq (by simp)
  | cons x rest ih =>
    intro i c target hv hex
    obtain ⟨h1, h2⟩ := validFrom_cons.mp hv
    obtain ⟨pre, l, post, heq, hcont, hnum⟩ := hex
    cases hcl : classify x with
    | header ns =>
      cases pre with
      | nil =>
        simp only [List.nil_append] at heq
        injection heq with hxl hrp
        rw [hxl, isContentLine_iff.mp hcont] at hcl
        exact absurd hcl (by simp)
      | cons p pre' =>
        rw [List.cons_append] at heq
        injection heq with hxp hrest
        have hnum' : counterFrom (stepCounter c x) pre' + 1 = target := by
          rw [← hnum, hxp]; rfl
        obtain ⟨pre2, l2, post2, heq2, hcont2, hnum2, hfind2⟩ :=
          ih (i + 1) (stepCounter c x) target h2 ⟨pre', l, post, hrest, hcont, hnum'⟩
        refine ⟨x :: pre2, l2, post2, by rw [List.cons_append, ← heq2],
          hcont2, hnum2, ?_⟩
        have hred : findPositionFrom (x :: rest) i c target
            = findPositionFrom rest (i + 1) ((ns : Int) - 1) target := by
          simp [findPositionFrom, hcl]
        rw [hred, ← stepCounter_header c hcl, hfind2]
        congr 1
        simp [List.length_cons]
        omega
    | marker =>
      cases pre with
      | nil =>
        simp only [List.nil_append] at heq
        injection heq with hxl hrp
        rw [hxl, isContentLine_iff.mp hcont] at hcl
        exact absurd hcl (by simp)
      | cons p pre' =>
        rw [List.cons_append] at heq
        injection heq with hxp hrest
        have hnum' : counterFrom (stepCounter c x) pre' + 1 = target := by
          rw [← hnum, hxp]; rfl
        obtain ⟨pre2, l2, post2, heq2, hcont2, hnum2, hfind2⟩ :=
          ih (i + 1) (stepCounter c x) target h2 ⟨pre', l, post, hrest, hcont, hnum'⟩
        refine ⟨x :: pre2, l2, post2, by rw [List.cons_append, ← heq2],
          hcont2, hnum2, ?_⟩
        have hred : findPositionFrom (x :: rest) i c target
            = findPositionFrom rest (i + 1) c target := by
          simp [findPositionFrom, hcl]
        rw [hred, ← stepCounter_marker c hcl, hfind2]
        congr 1
        simp [List.length_cons]
        omega
    | removed =>
      cases pre with
      | nil =>
        simp only [List.nil_append] at heq
        injection heq with hxl hrp
        rw [hxl, isContentLine_iff.mp hcont] at hcl
        exact absurd hcl (by simp)
      | cons p pre' =>
        rw [List.cons_append] at heq
        injection heq with hxp hrest
        have hle : c ≤ counterFrom c (p :: pre') := by
          apply le_counterFrom_of_valid (p :: pre') c (l :: post)
          rw [List.cons_append, ← hxp, ← hrest]
          exact hv
        have hlt : c < target := by
          rw [← hnum]
          omega
        have hnum' : counterFrom (stepCounter c x) pre' + 1 = target := by
          rw [← hnum, hxp]
          rfl
        obtain ⟨pre2, l2, post2, heq2, hcont2, hnum2, hfind2⟩ :=
          ih (i + 1) (stepCounter c x) target h2 ⟨pre', l, post, hrest, hcont, hnum'⟩
        refine ⟨x :: pre2, l2, post2, by rw [List.cons_append, ← heq2],
          hcont2, hnum2, ?_⟩
        have hred : findPositionFrom (x :: rest) i c target
            = findPositionFrom rest (i + 1) c target := by
          simp [findPositionFrom, hcl, ne_of_lt hlt]
        rw [hred, ← stepCounter_removed c hcl, hfind2]
        congr 1
        simp [List.length_cons]
        omega
    | content =>
      by_cases hct : c + 1 = target
      · refine ⟨[], x, rest, by simp, isContentLine_iff.mpr hcl, ?_, ?_⟩
        · simpa [counterFrom] using hct
        · simp [findPositionFrom, hcl, hct]
      · cases pre with
        | nil =>
          simp only [List.nil_append] at heq
          injection heq with hxl hrp
          simp [counterFrom] at hnum
          exact absurd hnum hct
        | cons p pre' =>
          rw [List.cons_append] at heq
          injection heq with hxp hrest
          have hnum' : counterFrom (stepCounter c x) pre' + 1 = target := by
            rw [← hnum, hxp]; rfl
          obtain ⟨pre2, l2, post2, heq2, hcont2, hnum2, hfind2⟩ :=
            ih (i + 1) (stepCounter c x) target h2 ⟨pre', l, post, hrest, hcont, hnum'⟩
          refine ⟨x :: pre2, l2, post2, by rw [List.cons_append, ← heq2],
            hcont2, hnum2, ?_⟩
          have hred : findPositionFrom (x :: rest) i c target
              = findPositionFrom rest (i + 1) (c + 1) target := by
            simp [findPositionFrom, hcl, hct]
          rw [hred, ← stepCounter_content c hcl, hfind2]
          congr 1
          simp [List.length_cons]
          omega

/-- C1: on a valid unified diff (monotone counter scan), locating a
new-file line number that some added/context line carries returns a
1-based position, counted over all diff lines, whose line is an
added/context line and whose re-derived new-file number is again the
target. -/
theorem locator_resolves_content_line (lines : List String) (L : Int)
    (hv : ValidDiff lines)
    (hex : ∃ pre l post, lines = pre ++ l :: post ∧ isContentLine l = true ∧
      counterFrom 0 pre + 1 = L) :
    ∃ p pre2 l2 post2, findPositionLines lines L = some p ∧
      lines = pre2 ++ l2 :: post2 ∧ isContentLine l2 = true ∧
      p = pre2.length + 1 ∧ counterFrom 0 pre2 + 1 = L := by
  obtain ⟨pre2, l2, post2, heq2, hcont2, hnum2, hfind2⟩ :=
    findPositionFrom_finds lines 0 0 L hv hex
  exact ⟨pre2.length + 1, pre2, l2, post2, by simpa using hfind2,
    heq2, hcont2, rfl, hnum2⟩

/-- Witness for `locator_resolves_content_line` on a concrete one-hunk
diff: new-file line 2 is the added line `+b` at position 5. -/
theorem locator_resolves_content_line_witness :
    ∃ p pre2 l2 post2,
      findPositionLines ["--- a/f", "+++ b/f", "@@ -1,2 +1,2 @@", " a", "+b"] 2
        = some p ∧
      (["--- a/f", "+++ b/f", "@@ -1,2 +1,2 @@", " a", "+b"] : List String)
        = pre2 ++ l2 :: post2 ∧
      isContentLine l2 = true ∧ p = pre2.length + 1 ∧
      counterFrom 0 pre2 + 1 = 2 :=
  locator_resolves_content_line
    ["--- a/f", "+++ b/f", "@@ -1,2 +1,2 @@", " a", "+b"] 2 (by decide)
    ⟨["--- a/f", "+++ b/f", "@@ -1,2 +1,2 @@", " a"], "+b", [],
      by decide, by decide, by decide⟩

/-- C2 counterexample: in the valid one-hunk diff
`["@@ -11,2 +11,1 @@", "-x", " y"]` the header resets the counter to 10,
so locating new-file line 10 returns position 2 — the removal line `-x` —
even though the claim requires that a removed diff line is never returned
for any target. -/
theorem locator_returns_removed_line_cex :
    findPositionLines ["@@ -11,2 +11,1 @@", "-x", " y"] 10 = some 2 ∧
    (["@@ -11,2 +11,1 @@", "-x", " y"] : List String).get? 1 = some "-x" ∧
    isRemovedLine "-x" = true ∧
    validFrom 0 ["@@ -11,2 +11,1 @@", "-x", " y"] = true := by
  refine ⟨by decide, by decide, by decide, by decide⟩

/-- Scan returning no match when the target exceeds every counter value. -/
theorem findPositionFrom_none (lines : List String) :
    ∀ (i : Nat) (c L : Int),
      (∀ k, k ≤ lines.length → counterFrom c (lines.take k) < L) →
      findPositionFrom lines i c L = none := by
  induction lines with
  | nil => intro i c L _; rfl
  | cons x rest ih =>
    intro i c L h
    have h0 : c < L := by simpa [counterFrom] using h 0 (by simp)
    have h1 : stepCounter c x < L := by
      have hh := h 1 (by simp)
      simpa [counterFrom] using hh
    have hrest : ∀ k, k ≤ rest.length →
        counterFrom (stepCounter c x) (rest.take k) < L := by
      intro k hk
      have hh := h (k + 1) (by simp; omega)
      simpa [counterFrom, List.take_succ_cons] using hh
    cases hcl : classify x with
    | header ns =>
      have hred : findPositionFrom (x :: rest) i c L
          = findPositionFrom rest (i + 1) ((ns : Int) - 1) L := by
        simp [findPositionFrom, hcl]
      rw [hred, ← stepCounter_header c hcl]
      exact ih (i + 1) (stepCounter c x) L hrest
    | marker =>
      have hred : findPositionFrom (x :: rest) i c L
          = findPositionFrom rest (i + 1) c L := by
        simp [findPositionFrom, hcl]
      rw [hred, ← stepCounter_marker c hcl]
      exact ih (i + 1) (stepCounter c x) L hrest
    | removed =>
      have hred : findPositionFrom (x :: rest) i c L
          = findPositionFrom rest (i + 1) c L := by
        simp [findPositionFrom, hcl, ne_of_lt h0]
      rw [hred, ← stepCounter_removed c hcl]
      exact ih (i + 1) (stepCounter c x) L hrest
    | content =>
      have hne : c + 1 ≠ L := by
        rw [← stepCounter_content c hcl]
        exact ne_of_lt h1
      have hred : findPositionFrom (x :: rest) i c L
          = findPositionFrom rest (i + 1) (c + 1) L := by
        simp [findPositionFrom, hcl, hne]
      rw [hred, ← stepCounter_content c hcl]
      exact ih (i + 1) (stepCounter c x) L hrest

/-- C2 amended: locating a target greater than every value the new-file
counter attains during the scan — in particular any target past the end
of the diff — yields "not found".  (The stronger original claim fails:
as `locator_returns_removed_line_cex` shows, a removal line *is* returned
when a hunk header resets the counter exactly to the target before any
added/context line.) -/
theorem locator_past_end_not_found (lines : List String) (L : Int)
    (h : ∀ k, k ≤ lines.length → counterFrom 0 (lines.take k) < L) :
    findPositionLines lines L = none :=
  findPositionFrom_none lines 0 0 L h

/-- Witness for `locator_past_end_not_found`: line 5 lies past the end of
a one-hunk diff covering new-file lines 1-2. -/
theorem locator_past_end_not_found_witness :
    findPositionLines ["@@ -1,2 +1,2 @@", " a", "+b"] 5 = none :=
  locator_past_end_not_found ["@@ -1,2 +1,2 @@", " a", "+b"] 5 (by decide)

/-! ## Extraction lemmas -/

/-- A list is a prefix of itself followed by anything. -/
theorem isPre_append_self (p : List Char) : ∀ r, isPre p (p ++ r) = true := by
  induction p with
  | nil => intro r; rfl
  | cons a p' ih => intro r; simp [isPre, ih r]

/-- A found prefix is reported at index 0. -/
theorem findSub_of_isPre (pat l : List Char) (h : isPre pat l = true) :
    findSub pat l = some 0 := by
  cases l with
  | nil => simp [findSub, h]
  | cons c rest => simp [findSub, h]

/-- A pattern that starts with a backtick never occurs inside
backtick-free text. -/
theorem findSub_btick_none (pat t : List Char) (hpat : pat = btick :: t) :
    ∀ l, (∀ c ∈ l, c ≠ btick) → findSub pat l = none := by
  intro l
  induction l with
  | nil =>
    intro _
    rw [hpat]
    rfl
  | cons c rest ih =>
    intro hl
    have hc : c ≠ btick := hl c (List.mem_cons_self c rest)
    have hc2 : btick ≠ c := fun h => hc h.symm
    have hpre : isPre pat (c :: rest) = false := by
      rw [hpat]
      simp [isPre, hc2]
    rw [findSub, hpre]
    simp [ih (fun d hd => hl d (List.mem_cons_of_mem c hd))]

/-- The closer characters written out. -/
theorem fenceCloseChars_eq : fenceCloseChars = ['\n', btick, btick, btick] := by
  decide

/-- The opener starts with a backtick. -/
theorem fenceOpenChars_eq :
    fenceOpenChars = btick :: "``json\n".data := by decide

/-- The first `"\n```"` after backtick-free text `l` followed by the
closer sits exactly at the end of `l`. -/
theorem findSub_close (l : List Char) (hl : ∀ c ∈ l, c ≠ btick) :
    findSub fenceCloseChars (l ++ fenceCloseChars) = some l.length := by
  induction l with
  | nil => decide
  | cons c l' ih =>
    have hc : c ≠ btick := hl c (List.mem_cons_self c l')
    have hl' : ∀ d ∈ l', d ≠ btick := fun d hd => hl d (List.mem_cons_of_mem c hd)
    have hpre : isPre fenceCloseChars (c :: (l' ++ fenceCloseChars)) = false := by
      rw [fenceCloseChars_eq]
      by_cases hcn : c = '\n'
      · subst hcn
        cases l' with
        | nil => decide
        | cons d l'' =>
          have hd : d ≠ btick := hl' d (List.mem_cons_self d l'')
          have hd2 : btick ≠ d := fun h => hd h.symm
          simp [isPre, hd2]
      · have hcn2 : '\n' ≠ c := fun h => hcn h.symm
        simp [isPre, hcn2]
    rw [List.cons_append, findSub, hpre]
    simp [ih hl']

/-- Fence stripping step on a non-backtick character. -/
theorem stripFences_cons_ne (c : Char) (rest : List Char) (hc : c ≠ '\x60') :
    stripFences (c :: rest) = c :: stripFences rest := by
  rw [stripFences.eq_def]
  split
  · rename_i h
    injection h with h1 _
    exact absurd h1 hc
  · rename_i h
    injection h with h1 _
    exact absurd h1 hc
  · rename_i h
    injection h with h1 h2
    rw [h1, h2]
  · rename_i h
    exact absurd h (by simp)

/-- Fence stripping does nothing to backtick-free text. -/
theorem stripFences_id (l : List Char) (hl : ∀ c ∈ l, c ≠ btick) :
    stripFences l = l := by
  induction l with
  | nil => rfl
  | cons c rest ih =>
    have hc : c ≠ '\x60' := hl c (List.mem_cons_self c rest)
    rw [stripFences_cons_ne c rest hc]
    rw [ih (fun d hd => hl d (List.mem_cons_of_mem c hd))]

/-- Trimming does nothing to a text delimited by braces. -/
theorem trimChars_brace (mid : List Char) :
    trimChars ('\x7b' :: (mid ++ ['\x7d'])) = '\x7b' :: (mid ++ ['\x7d']) := by
  have h1 : isJsWS '\x7b' = false := rfl
  have h2 : isJsWS '\x7d' = false := rfl
  rw [trimChars, List.dropWhile_cons]
  simp only [h1, Bool.false_eq_true, if_false]
  rw [show ('\x7b' :: (mid ++ ['\x7d'])).reverse
      = '\x7d' :: (mid.reverse ++ ['\x7b']) by simp]
  rw [List.dropWhile_cons]
  simp only [h2, Bool.false_eq_true, if_false]
  simp

/-- The last closing brace of `mid ++ ['\x7d']` is its final element. -/
theorem lastIdxOf_append : ∀ mid : List Char,
    lastIdxOf '\x7d' (mid ++ ['\x7d']) = some mid.length := by
  intro mid
  induction mid with
  | nil => decide
  | cons m mid' ih => simp [lastIdxOf, ih]

/-- The greedy brace regex returns a brace-delimited text whole. -/
theorem braceMatch_brace (mid : List Char) :
    braceMatch ('\x7b' :: (mid ++ ['\x7d'])) = some ('\x7b' :: (mid ++ ['\x7d'])) := by
  rw [braceMatch]
  simp only [if_pos rfl, lastIdxOf_append]
  have hlen : mid.length + 1 = (mid ++ ['\x7d']).length := by simp
  rw [hlen, List.take_length]
  simp

/-- Extraction on a fence-wrapped backtick-free text recovers the text. -/
theorem fenceGroup_wrap (J : List Char) (hb : ∀ c ∈ J, c ≠ btick) :
    fenceGroup (fenceOpenChars ++ J ++ fenceCloseChars) = some J := by
  rw [fenceGroup, List.append_assoc,
    findSub_of_isPre _ _ (isPre_append_self fenceOpenChars (J ++ fenceCloseChars))]
  have h2 : (fenceOpenChars ++ (J ++ fenceCloseChars)).drop (0 + 8)
      = J ++ fenceCloseChars := by
    have h8 : fenceOpenChars.length = 8 := by decide
    rw [Nat.zero_add, ← h8, List.drop_left]
  simp only [h2, findSub_close J hb, List.take_left]

/-- `extractRaw` on a fence-wrapped backtick-free nonempty text. -/
theorem extractRaw_wrap (J : List Char) (hb : ∀ c ∈ J, c ≠ btick)
    (hne : J ≠ []) :
    extractRaw (fenceOpenChars ++ J ++ fenceCloseChars) = J := by
  rw [extractRaw.eq_def, fenceGroup_wrap J hb]
  simp [isEmpty_false_of_ne_nil hne]

/-- `extractRaw` on a bare backtick-free brace-delimited text. -/
theorem extractRaw_obj (mid : List Char)
    (hb : ∀ c ∈ '\x7b' :: (mid ++ ['\x7d']), c ≠ btick) :
    extractRaw ('\x7b' :: (mid ++ ['\x7d'])) = '\x7b' :: (mid ++ ['\x7d']) := by
  have hfence : fenceGroup ('\x7b' :: (mid ++ ['\x7d'])) = none := by
    rw [fenceGroup, findSub_btick_none fenceOpenChars _ fenceOpenChars_eq _ hb]
  rw [extractRaw.eq_def, hfence, braceMatch_brace mid]

/-- The extracted string is the same for a JSON object text and its
fence-wrapped form. -/
theorem extractJsonStr_wrap_eq (J : String) (mid : List Char)
    (hJ : J.data = '\x7b' :: (mid ++ ['\x7d']))
    (hb : ∀ c ∈ J.data, c ≠ btick) :
    extractJsonStr (fenceWrap J) = extractJsonStr J := by
  have hdata : (fenceWrap J).data = fenceOpenChars ++ J.data ++ fenceCloseChars := by
    simp [fenceWrap, fenceOpenChars, fenceCloseChars, String.data_append]
  have hne : J.data ≠ [] := by rw [hJ]; simp
  rw [extractJsonStr, extractJsonStr, hdata, extractRaw_wrap J.data hb hne]
  rw [hJ, extractRaw_obj mid (hJ ▸ hb)]

/-- C6 counterexample: on an input with neither a fence nor a brace
region, the extraction does not fall back to the raw text — it
degenerates to a single character: the text `42` extracts as `2`. -/
theorem extract_fallback_cex :
    extractJsonStr "42" = "2" ∧ ("2" : String) ≠ "42" := by
  refine ⟨by decide, by decide⟩

/-- C6 amended: for a backtick-free JSON object text (brace-delimited),
the solution parser behaves identically on the text and on its
```` ```json ````-fenced wrapping; extraction prefers the fenced block,
then the greedy brace region, but its final fallback is a single
character of the raw text rather than the text itself. -/
theorem analyze_fence_wrap_eq (jparse : String → Option JValue) (J : String)
    (mid : List Char) (hJ : J.data = '\x7b' :: (mid ++ ['\x7d']))
    (hb : ∀ c ∈ J.data, c ≠ btick) :
    analyzeCore jparse (fenceWrap J) = analyzeCore jparse J := by
  rw [analyzeCore, analyzeCore, extractJsonStr_wrap_eq J mid hJ hb]

/-- Witness for `analyze_fence_wrap_eq` at the object text `{}`. -/
theorem analyze_fence_wrap_eq_witness :
    analyzeCore (fun _ => none) (fenceWrap "\x7b\x7d")
      = analyzeCore (fun _ => none) "\x7b\x7d" :=
  analyze_fence_wrap_eq (fun _ => none) "\x7b\x7d" [] (by decide) (by decide)
